import Mathlib

/-! Verification of the task-batching scheduler (`Worker`) implemented in
src/app/src/worker.rs of the repository.  Jobs are futures that the scheduler
never inspects; they are modelled as opaque values of a type `α`, and awaiting
a job to obtain its output is modelled by an arbitrary function `out : α → β`.
Rust panics (division by zero in `%`, out-of-bounds indexing) are modelled by
returning `none`. -/

/-- Selects, from a list `xs` whose head sits at absolute index `i`, the
elements whose absolute index is congruent to `k` modulo `C`, in order.  This
is the contents of chunk `k` produced by the round-robin chunk assignment of
`Worker::run_single_threaded`. -/
def selNat {α : Type} (C k : Nat) : Nat → List α → List α
  | _, [] => []
  | i, x :: xs => if i % C = k then x :: selNat C k (i + 1) xs else selNat C k (i + 1) xs

/-- Counts the indices `j` with `i ≤ j < i + n` and `j % C = k`. -/
def cntRes (C k : Nat) : Nat → Nat → Nat
  | _, 0 => 0
  | i, n + 1 => (if i % C = k then 1 else 0) + cntRes C k (i + 1) n

/-- Embeds the chunk-filling loop of `Worker::run_single_threaded`:
`for (i, fut) in flat.into_iter().enumerate() { chunks[i % chunks_count].push(fut) }`.
At every call site `chunks` has length `chunks_count = C > 0`, so the Rust
indexing `chunks[i % chunks_count]` is always in bounds and never panics. -/
def fillFrom {α : Type} (C : Nat) : Nat → List α → List (List α) → List (List α)
  | _, [], chunks => chunks
  | i, x :: xs, chunks =>
      fillFrom C (i + 1) xs (chunks.set (i % C) (chunks.getD (i % C) [] ++ [x]))

/-- Embeds `pub struct Worker<F: Future> { cnt: usize, fut: Vec<Vec<F>> }`:
`cnt` is the lane count fixed at construction and `fut` is the vector of
lanes, each lane an ordered list of jobs. -/
structure Worker (α : Type) where
  cnt : Nat
  fut : List (List α)
  deriving DecidableEq

namespace Worker

variable {α β : Type}

/-- Embeds `Worker::with_batches(batches)`: it stores `cnt = batches` and fills
`fut` with `batches` empty lanes.  Note there is no validation whatsoever:
`batches = 0` is accepted and yields a zero-lane scheduler. -/
def with_batches (batches : Nat) : Worker α :=
  ⟨batches, List.replicate batches []⟩

/-- Embeds `Worker::push`:
`let task_index = self.fut.len() % self.cnt; self.fut[task_index].push(fut)`.
When `cnt = 0` the Rust expression `self.fut.len() % self.cnt` panics with a
division by zero, modelled as `none`; an out-of-bounds `self.fut[task_index]`
would also panic, likewise modelled as `none`.  The index is computed from
`self.fut.len()` — the number of lanes, a constant — not from a push counter. -/
def push (w : Worker α) (x : α) : Option (Worker α) :=
  if w.cnt = 0 then none
  else if w.fut.length % w.cnt < w.fut.length then
    some ⟨w.cnt, w.fut.set (w.fut.length % w.cnt)
      (w.fut.getD (w.fut.length % w.cnt) [] ++ [x])⟩
  else none

/-- Repeated `worker.push(...)`, pushing the jobs of `js` in order. -/
def pushAll : Worker α → List α → Option (Worker α)
  | w, [] => some w
  | w, x :: xs =>
    match w.push x with
    | some w2 => pushAll w2 xs
    | none => none

/-- Embeds `Worker::run`: one spawned task per lane, each awaiting its lane's
jobs sequentially in lane order, with `join_all` waiting until every lane has
finished.  The returned list is the lane-major sequence of jobs awaited by the
call; each pushed job is awaited exactly once before `run` returns (across
lanes the interleaving is scheduler-dependent, but which jobs are awaited, and
how many times, is not). -/
def run (w : Worker α) : List α := w.fut.flatten

/-- Embeds `Worker::run_and_collect_results`: per lane, outputs are
accumulated in lane (push) order by `res.push(job.await)`; the outer loop then
concatenates the per-lane result vectors in lane-index order. -/
def run_and_collect_results (w : Worker α) (out : α → β) : List β :=
  (w.fut.map (fun jobs => jobs.map out)).flatten

/-- Embeds `Worker::run_all_joined`: one spawned task per lane, each lane
launching all of its jobs concurrently through `join_all` and waiting for all
of them.  As for `run`, the returned list is the lane-major sequence of jobs
awaited exactly once by the call. -/
def run_all_joined (w : Worker α) : List α := w.fut.flatten

/-- Embeds `Worker::run_all_joined_and_collect_results`: `join_all` yields a
lane's outputs in launch (push) order regardless of completion order, and the
outer loop concatenates the per-lane vectors in lane-index order. -/
def run_all_joined_and_collect_results (w : Worker α) (out : α → β) : List β :=
  (w.fut.map (fun jobs => jobs.map out)).flatten

/-- Embeds `Worker::run_single_threaded`: the effective batch size defaults to
`cnt`; the lanes are flattened in lane order; if the flattened length is at
most the batch size everything forms one chunk, otherwise the jobs are dealt
round-robin into `fut_count / batch_size + chunks_tail` chunks.  The returned
chunk list is in execution order: the Rust loop `for jobs in chunks
{ join_all(jobs).await }` runs the chunks strictly sequentially, the jobs
inside a chunk concurrently.  When `batch_size = 0` and there are jobs, the
Rust expression `fut_count % batch_size` panics, modelled as `none`. -/
def run_single_threaded (w : Worker α) (batch_size : Option Nat) : Option (List (List α)) :=
  let bsz := batch_size.getD w.cnt
  let flat := w.fut.flatten
  let fut_count := flat.length
  if fut_count ≤ bsz then some [flat]
  else if bsz = 0 then none
  else
    let chunks_tail := if 0 < fut_count % bsz then 1 else 0
    let chunks_count := fut_count / bsz + chunks_tail
    some (fillFrom chunks_count 0 flat (List.replicate chunks_count []))

end Worker

/-- Flattening any number of empty lanes gives the empty list. -/
theorem flatten_replicate_nil {α : Type} : ∀ n : Nat, (List.replicate n ([] : List α)).flatten = [] := by
  intro n
  induction n with
  | zero => rfl
  | succ n ih => simp [List.replicate_succ, ih]

/-- One step of `Worker::push` on a worker whose lane vector has length
`cnt = L ≥ 1`: the computed index is `L % L = 0`, so the job is appended to
lane 0 and the remaining lanes are untouched. -/
theorem push_cons_replicate {α : Type} (L : Nat) (hL : 1 ≤ L) (acc : List α) (x : α) :
    Worker.push ⟨L, acc :: List.replicate (L - 1) []⟩ x =
      some ⟨L, (acc ++ [x]) :: List.replicate (L - 1) []⟩ := by
  have hlen : (acc :: List.replicate (L - 1) ([] : List α)).length = L := by
    simp [List.length_replicate]
    omega
  have hcnt : ¬ (L = 0) := by omega
  simp only [Worker.push, hlen, hcnt, if_false, Nat.mod_self, if_neg]
  rw [if_pos (by omega : 0 < L)]
  rfl

/-- Pushing a list of jobs into a worker whose lanes are
`acc :: replicate (L-1) []` appends all of them, in order, to lane 0. -/
theorem pushAll_cons_replicate {α : Type} (L : Nat) (hL : 1 ≤ L) :
    ∀ (js acc : List α),
      Worker.pushAll ⟨L, acc :: List.replicate (L - 1) []⟩ js =
        some ⟨L, (acc ++ js) :: List.replicate (L - 1) []⟩ := by
  intro js
  induction js with
  | nil => intro acc; simp [Worker.pushAll]
  | cons x xs ih =>
    intro acc
    rw [Worker.pushAll, push_cons_replicate L hL acc x]
    show Worker.pushAll ⟨L, (acc ++ [x]) :: List.replicate (L - 1) []⟩ xs =
      some ⟨L, (acc ++ x :: xs) :: List.replicate (L - 1) []⟩
    rw [ih (acc ++ [x])]
    simp

/-- Every job pushed into a worker built by `with_batches L` with `L ≥ 1` ends
up in lane 0, in push order; lanes 1..L-1 stay empty. -/
theorem pushAll_with_batches {α : Type} (L : Nat) (hL : 1 ≤ L) (js : List α) :
    Worker.pushAll (Worker.with_batches L) js =
      some ⟨L, js :: List.replicate (L - 1) []⟩ := by
  have h : (Worker.with_batches L : Worker α) = ⟨L, [] :: List.replicate (L - 1) []⟩ := by
    unfold Worker.with_batches
    congr 1
    cases L with
    | zero => omega
    | succ n => simp [List.replicate_succ]
  rw [h]
  simpa using pushAll_cons_replicate L hL js []

/-- Reading a set list at the written (in-bounds) position gives the written
value. -/
theorem getD_set_self {β : Type} :
    ∀ (l : List β) (m : Nat) (v d : β), m < l.length → (l.set m v).getD m d = v := by
  intro l
  induction l with
  | nil => intro m v d h; simp at h
  | cons a t ih =>
    intro m v d h
    cases m with
    | zero => rfl
    | succ m => exact ih m v d (by simpa using h)

/-- Reading a set list away from the written position is unchanged. -/
theorem getD_set_ne {β : Type} :
    ∀ (l : List β) (m k : Nat) (v d : β), m ≠ k → (l.set m v).getD k d = l.getD k d := by
  intro l
  induction l with
  | nil => intro m k v d h; rfl
  | cons a t ih =>
    intro m k v d hmk
    cases m with
    | zero =>
      cases k with
      | zero => exact absurd rfl hmk
      | succ k => rfl
    | succ m =>
      cases k with
      | zero => rfl
      | succ k => exact ih m k v d (fun h => hmk (by rw [h]))

/-- Reading a replicated list with the replicated element as default always
gives that element. -/
theorem getD_replicate_self {β : Type} (b : β) :
    ∀ (n k : Nat), (List.replicate n b).getD k b = b := by
  intro n
  induction n with
  | zero => intro k; rfl
  | succ n ih =>
    intro k
    cases k with
    | zero => rfl
    | succ k => exact ih k

/-- Reading past the end of a list gives the default. -/
theorem getD_of_length_le {β : Type} (d : β) :
    ∀ (l : List β) (k : Nat), l.length ≤ k → l.getD k d = d := by
  intro l
  induction l with
  | nil => intro k h; rfl
  | cons a t ih =>
    intro k h
    cases k with
    | zero => simp at h
    | succ k => exact ih k (by simpa using h)

/-- In-bounds `getD` agrees with `get`. -/
theorem getD_eq_get {β : Type} :
    ∀ (l : List β) (n : Nat) (hn : n < l.length) (d : β), l.getD n d = l.get ⟨n, hn⟩ := by
  intro l
  induction l with
  | nil => intro n hn d; simp at hn
  | cons a t ih =>
    intro n hn d
    cases n with
    | zero => rfl
    | succ n => exact ih n (by simpa using hn) d

/-- Lists of equal length agreeing on `getD` at every index are equal. -/
theorem ext_from_getD {β : Type} (d : β) :
    ∀ (l1 l2 : List β), l1.length = l2.length →
      (∀ k, l1.getD k d = l2.getD k d) → l1 = l2 := by
  intro l1
  induction l1 with
  | nil =>
    intro l2 hlen h
    cases l2 with
    | nil => rfl
    | cons b s => simp at hlen
  | cons a t ih =>
    intro l2 hlen h
    cases l2 with
    | nil => simp at hlen
    | cons b s =>
      have h0 : a = b := h 0
      have ht : t = s := ih s (by simpa using hlen) (fun k => h (k + 1))
      rw [h0, ht]

/-- Filling chunks preserves the number of chunks. -/
theorem length_fillFrom {α : Type} (C : Nat) :
    ∀ (xs : List α) (i : Nat) (cs : List (List α)),
      (fillFrom C i xs cs).length = cs.length := by
  intro xs
  induction xs with
  | nil => intro i cs; rfl
  | cons x xs ih =>
    intro i cs
    rw [fillFrom, ih, List.length_set]

/-- Chunk `k` after the filling loop holds its previous contents followed by
exactly the elements whose absolute index is congruent to `k` modulo `C`. -/
theorem fillFrom_getD {α : Type} (C k : Nat) (hk : k < C) :
    ∀ (xs : List α) (i : Nat) (cs : List (List α)), cs.length = C →
      (fillFrom C i xs cs).getD k [] = cs.getD k [] ++ selNat C k i xs := by
  intro xs
  induction xs with
  | nil => intro i cs hcs; simp [fillFrom, selNat]
  | cons x xs ih =>
    intro i cs hcs
    rw [fillFrom]
    rw [ih (i + 1) _ (by rw [List.length_set]; exact hcs)]
    by_cases hik : i % C = k
    · rw [hik]
      rw [getD_set_self _ _ _ _ (by rw [hcs]; exact hk)]
      rw [selNat, if_pos hik]
      simp
    · rw [getD_set_ne _ _ _ _ _ hik]
      rw [selNat, if_neg hik]

/-- The selection has as many elements as there are matching indices. -/
theorem length_selNat {α : Type} (C k : Nat) :
    ∀ (xs : List α) (i : Nat), (selNat C k i xs).length = cntRes C k i xs.length := by
  intro xs
  induction xs with
  | nil => intro i; rfl
  | cons x xs ih =>
    intro i
    by_cases h : i % C = k
    · simp only [selNat, cntRes, if_pos h, List.length_cons, ih]
      exact Nat.add_comm _ 1
    · simp only [selNat, cntRes, if_neg h, ih]
      exact (Nat.zero_add _).symm

/-- Peels the last index off `cntRes`. -/
theorem cntRes_succ_right (C k : Nat) :
    ∀ (n i : Nat), cntRes C k i (n + 1) = cntRes C k i n + (if (i + n) % C = k then 1 else 0) := by
  intro n
  induction n with
  | zero => intro i; simp [cntRes]
  | succ n ih =>
    intro i
    rw [show cntRes C k i (n + 1 + 1) =
      (if i % C = k then 1 else 0) + cntRes C k (i + 1) (n + 1) from rfl]
    rw [ih (i + 1)]
    rw [show cntRes C k i (n + 1) =
      (if i % C = k then 1 else 0) + cntRes C k (i + 1) n from rfl]
    rw [show i + 1 + n = i + (n + 1) from by omega, Nat.add_assoc]

/-- Divisibility by `C` of `N + (C - k)` characterises `N % C = k`
(for `k < C`). -/
theorem dvd_add_sub_iff_mod (C k : Nat) (hC : 0 < C) (hk : k < C) (N : Nat) :
    C ∣ N + (C - k) ↔ N % C = k := by
  rw [Nat.dvd_iff_mod_eq_zero]
  rw [← Nat.mod_add_mod]
  have hr : N % C < C := Nat.mod_lt _ hC
  generalize N % C = r at hr ⊢
  constructor
  · intro h0
    rcases lt_or_ge (r + (C - k)) C with h3 | h3
    · rw [Nat.mod_eq_of_lt h3] at h0
      omega
    · rw [Nat.mod_eq_sub_mod h3, Nat.mod_eq_of_lt (by omega)] at h0
      omega
  · intro h0
    subst h0
    rw [show r + (C - r) = C from by omega, Nat.mod_self]

/-- The step identity of the ceiling-style count `(N + (C - 1) - k) / C`. -/
theorem succ_arith (C k : Nat) (hC : 0 < C) (hk : k < C) (N : Nat) :
    (N + 1 + (C - 1) - k) / C =
      (N + (C - 1) - k) / C + (if N % C = k then 1 else 0) := by
  rw [show N + 1 + (C - 1) - k = (N + (C - 1) - k) + 1 from by omega]
  rw [Nat.succ_div]
  rw [show N + (C - 1) - k + 1 = N + (C - k) from by omega]
  simp only [dvd_add_sub_iff_mod C k hC hk N]

/-- Closed form for the count of indices below `N` congruent to `k` mod `C`. -/
theorem cntRes_zero (C k : Nat) (hC : 0 < C) (hk : k < C) :
    ∀ N : Nat, cntRes C k 0 N = (N + (C - 1) - k) / C := by
  intro N
  induction N with
  | zero =>
    rw [Nat.div_eq_of_lt (by omega : 0 + (C - 1) - k < C)]
    rfl
  | succ N ih =>
    rw [cntRes_succ_right, ih, Nat.zero_add]
    exact (succ_arith C k hC hk N).symm

/-- The chunk count computed by `run_single_threaded`
(`fut_count / batch_size + chunks_tail`) equals `ceil(N / b)`, written in
natural-number arithmetic as `(N + b - 1) / b`. -/
theorem chunks_count_eq_ceil (b N : Nat) (hb : 0 < b) :
    N / b + (if 0 < N % b then 1 else 0) = (N + b - 1) / b := by
  rcases Nat.eq_zero_or_pos (N % b) with h | h
  · rw [if_neg (by omega)]
    obtain ⟨m, rfl⟩ : b ∣ N := Nat.dvd_of_mod_eq_zero h
    rw [Nat.mul_div_cancel_left m hb]
    rw [Nat.add_sub_assoc (by omega : 1 ≤ b)]
    rw [Nat.mul_add_div hb]
    rw [Nat.div_eq_of_lt (by omega : b - 1 < b)]
  · rw [if_pos h]
    have hN : 1 ≤ N := by
      rcases Nat.eq_zero_or_pos N with h2 | h2
      · subst h2; rw [Nat.zero_mod] at h; omega
      · exact h2
    rw [show N + b - 1 = (N - 1) + b from by omega, Nat.add_div_right _ hb]
    congr 1
    conv_lhs => rw [show N = (N - 1) + 1 from by omega]
    rw [Nat.succ_div]
    rw [if_neg (by
      rw [show N - 1 + 1 = N from by omega]
      intro hdvd
      rw [Nat.dvd_iff_mod_eq_zero.mp hdvd] at h
      omega)]
    rw [Nat.add_zero]

/-- The job count `N` never exceeds `chunks_count * batch_size`. -/
theorem le_chunks_count_mul (b N : Nat) (hb : 0 < b) :
    N ≤ (N / b + (if 0 < N % b then 1 else 0)) * b := by
  have hd := Nat.div_add_mod N b
  have hrb : N % b < b := Nat.mod_lt _ hb
  rcases Nat.eq_zero_or_pos (N % b) with h | h
  · rw [if_neg (by omega), Nat.add_zero]
    rw [Nat.mul_comm]
    generalize b * (N / b) = s at hd
    omega
  · rw [if_pos h, Nat.succ_mul, Nat.mul_comm]
    generalize b * (N / b) = s at hd
    generalize N % b = r at hd hrb
    omega

/-- Every residue class below `N` has at most `b` members, provided
`N ≤ b * C`. -/
theorem chunk_count_le (C k N b : Nat) (hC : 0 < C) (hbC : N ≤ b * C) :
    (N + (C - 1) - k) / C ≤ b := by
  have h2 : (N + (C - 1)) / C < b + 1 := by
    rw [Nat.div_lt_iff_lt_mul hC, Nat.succ_mul]
    revert hbC
    generalize b * C = t
    intro hbC
    omega
  calc (N + (C - 1) - k) / C
      ≤ (N + (C - 1)) / C := Nat.div_le_div_right (by omega)
    _ ≤ b := Nat.lt_succ_iff.mp h2

/-- The selection equals filtering the index-decorated list on the residue of
the index: chunk `k` holds exactly the jobs whose index is `k` modulo `C`, in
index order. -/
theorem selNat_eq_filter_enumFrom {α : Type} (C k : Nat) :
    ∀ (xs : List α) (i : Nat),
      selNat C k i xs =
        ((List.enumFrom i xs).filter (fun p => p.1 % C = k)).map Prod.snd := by
  intro xs
  induction xs with
  | nil => intro i; rfl
  | cons x xs ih =>
    intro i
    rw [show List.enumFrom i (x :: xs) = (i, x) :: List.enumFrom (i + 1) xs from rfl]
    rw [List.filter_cons]
    by_cases h : i % C = k
    · rw [selNat, if_pos h]
      rw [if_pos (by simpa using h)]
      rw [List.map_cons, ih (i + 1)]
    · rw [selNat, if_neg h]
      rw [if_neg (by simpa using h)]
      exact ih (i + 1)

/-- Reading a mapped range at an index. -/
theorem getD_map_range {β : Type} (d : β) :
    ∀ (n : Nat) (f : Nat → β) (k : Nat),
      ((List.range n).map f).getD k d = if k < n then f k else d := by
  intro n
  induction n with
  | zero => intro f k; simp
  | succ n ih =>
    intro f k
    rw [List.range_succ_eq_map, List.map_cons, List.map_map]
    cases k with
    | zero => rw [List.getD_cons_zero, if_pos (by omega)]
    | succ k =>
      rw [List.getD_cons_succ, ih (f ∘ Nat.succ) k]
      by_cases hk : k < n
      · rw [if_pos hk, if_pos (by omega)]
        rfl
      · rw [if_neg hk, if_neg (by omega)]

/-- The round-robin filling loop, started on `C` fresh chunks, produces the
list whose `k`-th entry is the selection of the indices congruent to `k`. -/
theorem fillFrom_eq_map_selNat {α : Type} (C : Nat) (xs : List α) :
    fillFrom C 0 xs (List.replicate C []) =
      (List.range C).map (fun k => selNat C k 0 xs) := by
  apply ext_from_getD []
  · rw [length_fillFrom, List.length_replicate, List.length_map, List.length_range]
  · intro k
    by_cases hk : k < C
    · rw [fillFrom_getD C k hk xs 0 _ (List.length_replicate C []), getD_replicate_self,
        getD_map_range, if_pos hk, List.nil_append]
    · rw [getD_map_range, if_neg hk]
      exact getD_of_length_le [] _ k
        (by rw [length_fillFrom, List.length_replicate]; omega)

/-- C1: the claim says the job at push-index `i` is placed into lane
`i mod L`.  The code computes the lane index as `self.fut.len() % self.cnt`,
which is `L % L = 0` independently of the push index: with `L = 2`, the job
pushed at index 1 ends up in lane 0 and lane 1 stays empty, where the claim
requires lane `1 mod 2 = 1`. -/
theorem c1_push_index_divergence :
    Worker.pushAll (Worker.with_batches 2) [10, 20] =
        some ⟨2, [[10, 20], []]⟩ ∧
      (Worker.mk 2 [[10, 20], []]).fut.getD 1 [] = ([] : List Nat) := by
  constructor
  · rfl
  · rfl

/-- C2: the claim says constructing with lane_count 0 fails with a
configuration error at construction time.  In the code `with_batches(0)`
succeeds and returns a zero-lane scheduler; the failure only happens at the
first `push`, which panics with a division by zero (`fut.len() % 0`),
modelled here as `none`. -/
theorem c2_zero_lanes_constructible :
    (Worker.with_batches 0 : Worker Nat) = ⟨0, []⟩ ∧
      (Worker.with_batches 0 : Worker Nat).push 5 = none := by
  constructor
  · rfl
  · rfl

/-- C9 counterexample: push is claimed to never fail for every constructed
scheduler, but on the (constructible, see `c2_zero_lanes_constructible`)
zero-lane scheduler the very first push fails: `fut.len() % cnt` is a
division by zero. -/
theorem c9_push_fails_on_zero_lanes :
    (Worker.with_batches 0 : Worker Nat).push 7 = none := by
  rfl

/-- C9 (amended): for every scheduler constructed with lane count `L ≥ 1` and
any sequence of pushed jobs, the next push always succeeds.  `push` is a pure
function of the worker state and the job, hence deterministic. -/
theorem c9_push_total (L : Nat) (hL : 1 ≤ L) (js : List Nat) (w : Worker Nat)
    (hw : Worker.pushAll (Worker.with_batches L) js = some w) (x : Nat) :
    (w.push x).isSome = true := by
  rw [pushAll_with_batches L hL js] at hw
  obtain rfl := Option.some.inj hw
  rw [push_cons_replicate L hL js x]
  rfl

/-- C9 witness at concrete input. -/
theorem c9_push_total_witness :
    ((Worker.mk 3 [[1, 2], [], []]).push 9).isSome = true :=
  c9_push_total 3 (by decide) [1, 2] (Worker.mk 3 [[1, 2], [], []]) (by decide) 9

/-- C7: `run()` and `run_all_joined()` await every pushed job exactly once
before returning: the lane-major list of jobs awaited by either method is
exactly the pushed sequence `js` (all jobs sit in lane 0; the remaining lanes
contribute nothing). -/
theorem c7_run_executes_all_jobs {α : Type} (L : Nat) (hL : 1 ≤ L) (js : List α)
    (w : Worker α) (hw : Worker.pushAll (Worker.with_batches L) js = some w) :
    w.run = js ∧ w.run_all_joined = js := by
  rw [pushAll_with_batches L hL js] at hw
  obtain rfl := Option.some.inj hw
  constructor
  · simp [Worker.run, flatten_replicate_nil]
  · simp [Worker.run_all_joined, flatten_replicate_nil]

/-- C7 witness at concrete input. -/
theorem c7_run_executes_all_jobs_witness :
    (Worker.mk 2 [[4, 5, 6], []]).run = [4, 5, 6] ∧
      (Worker.mk 2 [[4, 5, 6], []]).run_all_joined = [4, 5, 6] :=
  c7_run_executes_all_jobs 2 (by decide) [4, 5, 6] (Worker.mk 2 [[4, 5, 6], []]) (by decide)

/-- C8: after any sequence of `N` pushes into a scheduler with `L ≥ 1` lanes,
the lane sizes sum to `N`, and every lane lists its jobs in push order (each
lane is a subsequence of the push sequence; concretely lane 0 is the whole
push sequence and the other lanes are empty). -/
theorem c8_lane_sizes_and_order {α : Type} (L : Nat) (hL : 1 ≤ L) (js : List α)
    (w : Worker α) (hw : Worker.pushAll (Worker.with_batches L) js = some w)
    (lane : List α) (hlane : lane ∈ w.fut) :
    (w.fut.map List.length).sum = js.length ∧ lane.Sublist js := by
  rw [pushAll_with_batches L hL js] at hw
  obtain rfl := Option.some.inj hw
  constructor
  · simp [List.map_replicate]
  · rcases List.mem_cons.mp hlane with h | h
    · rw [h]
    · rw [List.eq_of_mem_replicate h]
      exact List.nil_sublist js

/-- C8 witness at concrete input. -/
theorem c8_lane_sizes_and_order_witness :
    ((Worker.mk 2 [[4, 5], []]).fut.map List.length).sum = ([4, 5] : List Nat).length ∧
      List.Sublist [4, 5] [4, 5] :=
  c8_lane_sizes_and_order 2 (by decide) [4, 5] (Worker.mk 2 [[4, 5], []]) (by decide)
    [4, 5] (by decide)

/-- C5 (implicit): the lane index computed by `push` is `L % L = 0`, so every
pushed job lands in lane 0 in push order, lanes 1..L-1 stay empty, and both
result-collecting run methods therefore return the outputs in the original
global push order, for every `L ≥ 1`. -/
theorem c5_everything_in_lane_zero {α β : Type} (out : α → β) (L : Nat) (hL : 1 ≤ L)
    (js : List α) :
    Worker.pushAll (Worker.with_batches L) js =
        some ⟨L, js :: List.replicate (L - 1) []⟩ ∧
      (Worker.mk L (js :: List.replicate (L - 1) [])).run_and_collect_results out =
        js.map out ∧
      (Worker.mk L (js :: List.replicate (L - 1) [])).run_all_joined_and_collect_results out =
        js.map out := by
  refine ⟨pushAll_with_batches L hL js, ?_, ?_⟩
  · simp [Worker.run_and_collect_results, List.map_replicate, flatten_replicate_nil]
  · simp [Worker.run_all_joined_and_collect_results, List.map_replicate, flatten_replicate_nil]

/-- C5 witness at concrete input. -/
theorem c5_everything_in_lane_zero_witness :
    Worker.pushAll (Worker.with_batches 3) [7, 8] =
        some ⟨3, [7, 8] :: List.replicate (3 - 1) []⟩ ∧
      (Worker.mk 3 ([7, 8] :: List.replicate (3 - 1) [])).run_and_collect_results
          (fun n => n + 1) = [7, 8].map (fun n => n + 1) ∧
      (Worker.mk 3 ([7, 8] :: List.replicate (3 - 1) [])).run_all_joined_and_collect_results
          (fun n => n + 1) = [7, 8].map (fun n => n + 1) :=
  c5_everything_in_lane_zero (fun n => n + 1) 3 (by decide) [7, 8]

/-- C3 counterexample: with L = 3 and the seven jobs 0..6 (each job's output
being its own number), `run_and_collect_results` returns
[0, 1, 2, 3, 4, 5, 6] — not the order [0, 3, 6, 1, 4, 2] the claim's example
demands (which moreover has only six entries for N = 7). -/
theorem c3_result_order_counterexample :
    (Worker.pushAll (Worker.with_batches 3) [0, 1, 2, 3, 4, 5, 6]).map
        (fun w => w.run_and_collect_results (fun n => n)) =
      some [0, 1, 2, 3, 4, 5, 6] ∧
      ([0, 1, 2, 3, 4, 5, 6] : List Nat) ≠ [0, 3, 6, 1, 4, 2] := by
  constructor
  · rfl
  · decide

/-- C3 (amended): each result-collecting run method returns exactly `N`
outputs, formed by concatenating the per-lane output sequences in lane-index
order with each lane in its push order; since `push` stores every job in lane
0, this concatenation coincides with the global push order (for L = 3, N = 7
the result order is [0, 1, 2, 3, 4, 5, 6]). -/
theorem c3_collect_is_lane_concatenation {α β : Type} (out : α → β) (L : Nat)
    (hL : 1 ≤ L) (js : List α) (w : Worker α)
    (hw : Worker.pushAll (Worker.with_batches L) js = some w) :
    w.run_and_collect_results out = (w.fut.map (fun jobs => jobs.map out)).flatten ∧
      w.run_and_collect_results out = js.map out ∧
      w.run_all_joined_and_collect_results out = js.map out ∧
      (w.run_and_collect_results out).length = js.length := by
  rw [pushAll_with_batches L hL js] at hw
  obtain rfl := Option.some.inj hw
  refine ⟨rfl, ?_, ?_, ?_⟩
  · simp [Worker.run_and_collect_results, List.map_replicate, flatten_replicate_nil]
  · simp [Worker.run_all_joined_and_collect_results, List.map_replicate, flatten_replicate_nil]
  · simp [Worker.run_and_collect_results, List.map_replicate, flatten_replicate_nil]

/-- C3 witness at concrete input. -/
theorem c3_collect_is_lane_concatenation_witness :
    (Worker.mk 2 [[1, 2, 3], []]).run_and_collect_results (fun n => n * 10) =
        ((Worker.mk 2 [[1, 2, 3], []]).fut.map (fun jobs => jobs.map (fun n => n * 10))).flatten ∧
      (Worker.mk 2 [[1, 2, 3], []]).run_and_collect_results (fun n => n * 10) =
        [1, 2, 3].map (fun n => n * 10) ∧
      (Worker.mk 2 [[1, 2, 3], []]).run_all_joined_and_collect_results (fun n => n * 10) =
        [1, 2, 3].map (fun n => n * 10) ∧
      ((Worker.mk 2 [[1, 2, 3], []]).run_and_collect_results (fun n => n * 10)).length =
        ([1, 2, 3] : List Nat).length :=
  c3_collect_is_lane_concatenation (fun n => n * 10) 2 (by decide) [1, 2, 3]
    (Worker.mk 2 [[1, 2, 3], []]) (by decide)

/-- C10: with `L ≥ 1` lanes and zero pushed jobs, every run method completes:
the executed-job lists are empty, both collecting variants return the empty
sequence, and `run_single_threaded` returns (does not panic) with a single
empty batch, for any requested batch size. -/
theorem c10_zero_jobs {α β : Type} (out : α → β) (L : Nat) (hL : 1 ≤ L)
    (bs : Option Nat) :
    (Worker.with_batches L : Worker α).run = [] ∧
      (Worker.with_batches L : Worker α).run_all_joined = [] ∧
      (Worker.with_batches L).run_and_collect_results out = [] ∧
      (Worker.with_batches L).run_all_joined_and_collect_results out = [] ∧
      (Worker.with_batches L : Worker α).run_single_threaded bs = some [[]] := by
  refine ⟨?_, ?_, ?_, ?_, ?_⟩
  · simp [Worker.run, Worker.with_batches, flatten_replicate_nil]
  · simp [Worker.run_all_joined, Worker.with_batches, flatten_replicate_nil]
  · simp [Worker.run_and_collect_results, Worker.with_batches, List.map_replicate,
      flatten_replicate_nil]
  · simp [Worker.run_all_joined_and_collect_results, Worker.with_batches,
      List.map_replicate, flatten_replicate_nil]
  · simp [Worker.run_single_threaded, Worker.with_batches, flatten_replicate_nil]

/-- C10 witness at concrete input. -/
theorem c10_zero_jobs_witness :
    (Worker.with_batches 4 : Worker Nat).run = [] ∧
      (Worker.with_batches 4 : Worker Nat).run_all_joined = [] ∧
      (Worker.with_batches 4).run_and_collect_results (fun n => n + 1) = [] ∧
      (Worker.with_batches 4).run_all_joined_and_collect_results (fun n => n + 1) = [] ∧
      (Worker.with_batches 4 : Worker Nat).run_single_threaded none = some [[]] :=
  c10_zero_jobs (fun n => n + 1) 4 (by decide) none

/-- C4: `run_single_threaded` with effective batch size `b ≥ 1` (the given
size, or the lane count when unspecified) flattens the jobs into global push
order; with `N ≤ b` all jobs form one single batch, and with `N > b` it
produces exactly `ceil(N / b)` chunks where the job at flattened index `i`
goes to chunk `i mod chunks_count` (order preserved inside each chunk), the
chunk list being in strict sequential execution order. -/
theorem c4_single_threaded_chunking {α : Type} (L : Nat) (hL : 1 ≤ L) (js : List α)
    (w : Worker α) (hw : Worker.pushAll (Worker.with_batches L) js = some w)
    (bs : Option Nat) (hb : 1 ≤ bs.getD L) :
    (js.length ≤ bs.getD L → w.run_single_threaded bs = some [js]) ∧
      (bs.getD L < js.length →
        w.run_single_threaded bs =
          some ((List.range ((js.length + bs.getD L - 1) / bs.getD L)).map (fun k =>
            ((js.enum.filter
                (fun p => p.1 % ((js.length + bs.getD L - 1) / bs.getD L) = k)).map
              Prod.snd)))) := by
  rw [pushAll_with_batches L hL js] at hw
  obtain rfl := Option.some.inj hw
  have hflat : (Worker.mk L (js :: List.replicate (L - 1) [])).fut.flatten = js := by
    simp [flatten_replicate_nil]
  constructor
  · intro hle
    simp only [Worker.run_single_threaded, hflat]
    rw [if_pos hle]
  · intro hlt
    simp only [Worker.run_single_threaded, hflat]
    rw [if_neg (by omega), if_neg (by omega : ¬ (bs.getD L = 0))]
    have hceil : js.length / bs.getD L + (if 0 < js.length % bs.getD L then 1 else 0) =
        (js.length + bs.getD L - 1) / bs.getD L :=
      chunks_count_eq_ceil (bs.getD L) js.length (by omega)
    rw [hceil]
    rw [fillFrom_eq_map_selNat ((js.length + bs.getD L - 1) / bs.getD L) js]
    have hfun : (fun k => selNat ((js.length + bs.getD L - 1) / bs.getD L) k 0 js) =
        (fun k =>
          ((js.enum.filter
              (fun p => p.1 % ((js.length + bs.getD L - 1) / bs.getD L) = k)).map
            Prod.snd)) := by
      funext k
      rw [selNat_eq_filter_enumFrom]
      rfl
    rw [hfun]

/-- C4 witness at concrete input (N = 5, b = 2, so 3 chunks). -/
theorem c4_single_threaded_chunking_witness :
    (([1, 2, 3, 4, 5] : List Nat).length ≤ (some 2 : Option Nat).getD 2 →
        (Worker.mk 2 [[1, 2, 3, 4, 5], []]).run_single_threaded (some 2) =
          some [[1, 2, 3, 4, 5]]) ∧
      ((some 2 : Option Nat).getD 2 < ([1, 2, 3, 4, 5] : List Nat).length →
        (Worker.mk 2 [[1, 2, 3, 4, 5], []]).run_single_threaded (some 2) =
          some ((List.range ((([1, 2, 3, 4, 5] : List Nat).length +
              (some 2 : Option Nat).getD 2 - 1) / (some 2 : Option Nat).getD 2)).map
            (fun k =>
              ((([1, 2, 3, 4, 5] : List Nat).enum.filter
                  (fun p => p.1 % ((([1, 2, 3, 4, 5] : List Nat).length +
                    (some 2 : Option Nat).getD 2 - 1) / (some 2 : Option Nat).getD 2) = k)).map
                Prod.snd)))) :=
  c4_single_threaded_chunking 2 (by decide) [1, 2, 3, 4, 5]
    (Worker.mk 2 [[1, 2, 3, 4, 5], []]) (by decide) (some 2) (by decide)

/-- C6: for any scheduler state and any batch size `b ≥ 1`,
`run_single_threaded(b)` never forms a chunk with more than `b` jobs —
including the single-batch case `N ≤ b` — so at most `b` jobs are in flight
concurrently. -/
theorem c6_chunk_size_bounded {α : Type} (w : Worker α) (b : Nat) (hb : 1 ≤ b)
    (cs : List (List α)) (c : List α)
    (hrun : w.run_single_threaded (some b) = some cs) (hc : c ∈ cs) :
    c.length ≤ b := by
  simp only [Worker.run_single_threaded, Option.getD_some] at hrun
  by_cases hle : w.fut.flatten.length ≤ b
  · rw [if_pos hle] at hrun
    obtain rfl := Option.some.inj hrun
    rw [List.mem_singleton.mp hc]
    exact hle
  · rw [if_neg hle, if_neg (by omega : ¬ (b = 0))] at hrun
    obtain rfl := Option.some.inj hrun
    rw [fillFrom_eq_map_selNat] at hc
    obtain ⟨k, hk, hck⟩ := List.mem_map.mp hc
    have hkC : k <
        w.fut.flatten.length / b + (if 0 < w.fut.flatten.length % b then 1 else 0) :=
      List.mem_range.mp hk
    have hCpos : 0 <
        w.fut.flatten.length / b + (if 0 < w.fut.flatten.length % b then 1 else 0) :=
      Nat.lt_of_le_of_lt (Nat.zero_le _) hkC
    rw [← hck, length_selNat, cntRes_zero _ _ hCpos hkC]
    apply chunk_count_le _ _ _ _ hCpos
    rw [Nat.mul_comm]
    exact le_chunks_count_mul b w.fut.flatten.length (by omega)

/-- C6 witness at concrete input: with jobs [1, 2, 3] and b = 2 the chunks are
[[1, 3], [2]]; the member chunk [1, 3] has at most 2 jobs. -/
theorem c6_chunk_size_bounded_witness : ([1, 3] : List Nat).length ≤ 2 :=
  c6_chunk_size_bounded (Worker.mk 1 [[1, 2, 3]]) 2 (by decide) [[1, 3], [2]] [1, 3]
    (by decide) (by decide)

example :
    (Worker.mk 2 [[1, 2, 3, 4, 5], []]).run_single_threaded (some 2) =
      some [[1, 4], [2, 5], [3]] := by decide

example :
    (Worker.mk 1 [[1, 2, 3]]).run_single_threaded none = some [[1], [2], [3]] := by decide

example :
    (Worker.mk 4 [[1, 2, 3]]).run_single_threaded none = some [[1, 2, 3]] := by decide
